import Mathlib

/-!
Verification development for make_astral_map.py.

The Python source is shallowly embedded: strings are modelled as `List Char`,
Python sets as `Finset (List Char)`, Python dicts as functions into `Option`,
and file system access is modelled by records carrying the decoded file
content (`none` when reading the file raises an exception).
-/

/-- The single quote character (code 39), written via `Char.ofNat`. -/
def squote : Char := Char.ofNat 39

/-- The double quote character (code 34), written via `Char.ofNat`. -/
def dquote : Char := Char.ofNat 34

/-- Python whitespace test for the characters relevant here: models the
default class of `str.strip`, `str.split` and the regex class used by
the script (space, tab, newline, carriage return, vertical tab, form feed).
Wider Unicode whitespace is not used by the inputs modelled here. -/
def isPySpace (c : Char) : Bool :=
  c == ' ' || c == '\t' || c == '\n' || c == '\r' || c == '\x0b' || c == '\x0c'

/-- Models Python `s.strip()`: drop leading and trailing whitespace. -/
def pyStrip (l : List Char) : List Char :=
  ((l.dropWhile isPySpace).reverse.dropWhile isPySpace).reverse

/-- Models Python `s.rstrip(";")`: drop every trailing semicolon. -/
def rstripSemi (l : List Char) : List Char :=
  (l.reverse.dropWhile (fun c => c == ';')).reverse

/-- A permutation test on the representative lists of two multisets of
strings.  Mathlib's own decidable equality for multisets is opaque to the
kernel, so the decidable instances below are built from this computable
test; they let `decide` evaluate the concrete taxon sets produced by the
parsers in this file. -/
def msetBEq (s t : Multiset (List Char)) : Bool :=
  Quotient.liftOn₂ s t (fun l1 l2 => decide (l1.Perm l2))
    (fun _ _ _ _ ha hb =>
      decide_eq_decide.mpr
        ⟨fun h => (List.Perm.trans (List.Perm.symm ha) h).trans hb,
         fun h => (List.Perm.trans ha h).trans (List.Perm.symm hb)⟩)

theorem msetBEq_iff (x y : Multiset (List Char)) : msetBEq x y = true ↔ x = y := by
  refine Quotient.inductionOn₂ x y ?_
  intro l1 l2
  show decide (l1.Perm l2) = true ↔ _
  rw [decide_eq_true_iff]
  exact ⟨fun h => Quot.sound h, fun h => Quotient.exact h⟩

instance (priority := 2000) : DecidableEq (Finset (List Char)) :=
  fun s t => decidable_of_iff (msetBEq s.val t.val = true)
    ((msetBEq_iff s.val t.val).trans Finset.val_inj)

/-- Computable membership test for a multiset of strings; same purpose as
`msetBEq`. -/
def msetMemBool (a : List Char) (s : Multiset (List Char)) : Bool :=
  Quotient.liftOn s (fun l => decide (a ∈ l))
    (fun _ _ h => decide_eq_decide.mpr (List.Perm.mem_iff h))

theorem msetMemBool_iff (a : List Char) (s : Multiset (List Char)) :
    msetMemBool a s = true ↔ a ∈ s := by
  refine Quotient.inductionOn s ?_
  intro l
  show decide (a ∈ l) = true ↔ _
  rw [decide_eq_true_iff]
  exact Iff.symm (Multiset.mem_coe)

instance (priority := 2000) (a : List Char) (s : Finset (List Char)) : Decidable (a ∈ s) :=
  decidable_of_iff (msetMemBool a s.val = true) (msetMemBool_iff a s.val)

/-- Helper for `strip_nexus_comments`: the text after the first closing
bracket, or `none` when no closing bracket exists.  This is how the
non-greedy regex `\[.*?\]` (with DOTALL) ends a match: at the first `]`
after the opening `[`. -/
def dropComment : List Char → Option (List Char)
  | [] => none
  | c :: rest => if c = ']' then some rest else dropComment rest

theorem dropComment_length : ∀ l r, dropComment l = some r → r.length < l.length := by
  intro l
  induction l with
  | nil => intro r h; simp [dropComment] at h
  | cons c rest ih =>
    intro r h
    simp only [dropComment] at h
    split at h
    · cases h; simp
    · have := ih r h; simp; omega

/-- Fuelled scanner behind `strip_nexus_comments`; the fuel is an upper
bound on the length of the remaining text (each step consumes at least one
character), kept explicit so that the definition is structurally recursive
and the kernel can evaluate it. -/
def stripFuel : Nat → List Char → List Char
  | _, [] => []
  | 0, l => l
  | fuel + 1, c :: rest =>
    if c = '[' then
      match dropComment rest with
      | some r => stripFuel fuel r
      | none => c :: stripFuel fuel rest
    else c :: stripFuel fuel rest

/-- Models `strip_nexus_comments` (line 40): `re.sub(r"\[.*?\]", "", text)`
with DOTALL.  Scanning left to right, an opening bracket that is followed
by some closing bracket starts a match that ends at the first closing
bracket (non-greedy); an opening bracket with no later closing bracket
matches nothing and is kept. -/
def strip_nexus_comments (s : List Char) : List Char :=
  stripFuel s.length s

/-- Helper for the `\S+` alternative of the token regex: the maximal run of
non-whitespace characters at the front, together with the rest. -/
def scanNonWS : List Char → List Char × List Char
  | [] => ([], [])
  | c :: rest =>
    if isPySpace c then ([], c :: rest)
    else
      let p := scanNonWS rest
      (c :: p.1, p.2)

theorem scanNonWS_length : ∀ l, (scanNonWS l).2.length ≤ l.length := by
  intro l
  induction l with
  | nil => simp [scanNonWS]
  | cons c rest ih =>
    simp only [scanNonWS]
    split
    · simp
    · simp; omega

/-- Helper for the quoted alternatives of the token regex: the content up to
the first occurrence of the quote character `q`, and the rest after it;
`none` when `q` does not occur (the quoted alternative fails to match). -/
def splitAtQuote (q : Char) : List Char → Option (List Char × List Char)
  | [] => none
  | c :: rest =>
    if c = q then some ([], rest)
    else
      match splitAtQuote q rest with
      | some p => some (c :: p.1, p.2)
      | none => none

theorem splitAtQuote_length : ∀ l p, splitAtQuote q l = some p → p.2.length < l.length := by
  intro l
  induction l with
  | nil => intro p h; simp [splitAtQuote] at h
  | cons c rest ih =>
    intro p h
    simp only [splitAtQuote] at h
    split at h
    · cases h; simp
    · revert h; split
      · intro h; cases h; rename_i p0 hp0
        have := ih p0 hp0; simp; omega
      · intro h; cases h

/-- Fuelled scanner behind `tokenizeAux`; the fuel is an upper bound on the
length of the remaining text (each match or skipped character consumes at
least one character), kept explicit so that the definition is structurally
recursive and the kernel can evaluate it. -/
def tokenizeFuel : Nat → List Char → List (List Char)
  | _, [] => []
  | 0, _ => []
  | fuel + 1, c :: rest =>
    if isPySpace c then tokenizeFuel fuel rest
    else if c = squote then
      match splitAtQuote squote rest with
      | some p => p.1 :: tokenizeFuel fuel p.2
      | none =>
        let p := scanNonWS rest
        (c :: p.1) :: tokenizeFuel fuel p.2
    else if c = dquote then
      match splitAtQuote dquote rest with
      | some p => p.1 :: tokenizeFuel fuel p.2
      | none =>
        let p := scanNonWS rest
        (c :: p.1) :: tokenizeFuel fuel p.2
    else
      let p := scanNonWS rest
      (c :: p.1) :: tokenizeFuel fuel p.2

/-- Models one left-to-right pass of `TOKEN_RE.finditer` (line 37), regex
`'([^']*)'|"([^"]*)"|(\S+)`: at each position the single-quoted
alternative is tried first, then the double-quoted one, then a maximal
non-whitespace run; whitespace between matches is skipped. -/
def tokenizeAux (l : List Char) : List (List Char) :=
  tokenizeFuel l.length l

/-- Models `tokenize` (lines 44-50): run the token regex over
`line.strip()` and collect the first non-`None` group of each match
(the quoted content, quotes excluded, or the bare non-whitespace run). -/
def tokenize (line : List Char) : List (List Char) :=
  tokenizeAux (pyStrip line)

/-- Case-insensitive prefix test: models `lowered.startswith(pat)` and the
position test of `lowered.find(pat)`, for a lowercase pattern `pat`. -/
def checkCI (pat s : List Char) : Prop :=
  (s.take pat.length).map Char.toLower = pat

instance (pat s : List Char) : Decidable (checkCI pat s) := by
  unfold checkCI; infer_instance

/-- Models `text.lower().find(pat)` followed by `text[idx:]`: the suffix of
`text` starting at the first case-insensitive occurrence of the lowercase
pattern `pat`, or `none` when there is no occurrence. -/
def findCI (pat : List Char) : List Char → Option (List Char)
  | [] => if checkCI pat [] then some [] else none
  | c :: rest =>
    if checkCI pat (c :: rest) then some (c :: rest)
    else findCI pat rest

/-- Models `parse_taxlabels_block` (lines 53-71): locate `taxlabels`
case-insensitively, give up when no `;` follows, cut at the first `;`,
strip the leading keyword, strip whitespace, and tokenize. -/
def parse_taxlabels_block (text : List Char) : List (List Char) :=
  match findCI "taxlabels".toList text with
  | none => []
  | some sub =>
    if ';' ∈ sub then
      let sub2 := sub.takeWhile (fun c => !(c == ';'))
      let sub3 :=
        if checkCI "taxlabels".toList sub2 then pyStrip (sub2.drop 9) else pyStrip sub2
      tokenize sub3
    else []

/-- Models Python `str.splitlines` for line breaks made of newline,
carriage return, or a carriage return followed by a newline (the breaks
produced by the files modelled here); no trailing empty line is produced. -/
def splitlinesGo : List Char → List Char → List (List Char)
  | acc, [] => [acc.reverse]
  | acc, [c] =>
    if c = '\n' then [acc.reverse]
    else if c = '\r' then [acc.reverse]
    else [(c :: acc).reverse]
  | acc, c :: c2 :: rest =>
    if c = '\n' then acc.reverse :: splitlinesGo [] (c2 :: rest)
    else if c = '\r' then
      if c2 = '\n' then
        match rest with
        | [] => [acc.reverse]
        | c3 :: rest3 => acc.reverse :: splitlinesGo [] (c3 :: rest3)
      else acc.reverse :: splitlinesGo [] (c2 :: rest)
    else splitlinesGo (c :: acc) (c2 :: rest)

/-- Models `s.splitlines()`: empty input gives no lines. -/
def splitlines (s : List Char) : List (List Char) :=
  match s with
  | [] => []
  | _ => splitlinesGo [] s

/-- The keyword prefixes skipped inside a MATRIX block (line 96). -/
def matrixKeywords : List (List Char) :=
  ["matrix".toList, "format".toList, "dimensions".toList, "end".toList, "begin".toList]

/-- Models `line.lower().startswith(("matrix", "format", "dimensions",
"end", "begin"))` (line 96). -/
def startsWithKeyword (line : List Char) : Bool :=
  matrixKeywords.any (fun kw => decide (((line.map Char.toLower).take kw.length) = kw))

/-- The body of the per-line loop of `parse_matrix_block` (lines 91-101):
strip the raw line, skip it when empty or when it starts with a header
keyword, otherwise contribute the first token. -/
def matrixRowLabel (raw : List Char) : Option (List Char) :=
  let line := pyStrip raw
  if line = [] then none
  else if startsWithKeyword line then none
  else
    match tokenize line with
    | [] => none
    | t :: _ => some t

/-- Models `parse_matrix_block` (lines 74-102): locate `matrix`
case-insensitively, cut at the first following `;` when one exists
(otherwise keep the whole remainder), then take the first token of every
kept line. -/
def parse_matrix_block (text : List Char) : List (List Char) :=
  match findCI "matrix".toList text with
  | none => []
  | some s =>
    let sub := s.drop 6
    let sub2 := if ';' ∈ sub then sub.takeWhile (fun c => !(c == ';')) else sub
    (splitlines sub2).filterMap matrixRowLabel

/-- The final cleanup of `parse_nexus_taxa` (line 128):
`set(l.strip().rstrip(";") for l in taxa if l.strip())`. -/
def nexusClean (taxa : Finset (List Char)) : Finset (List Char) :=
  (taxa.filter (fun l => pyStrip l ≠ [])).image (fun l => rstripSemi (pyStrip l))

/-- Models `parse_nexus_taxa` (lines 105-129) on the decoded file content:
strip comments, try TAXLABELS, fall back to MATRIX only when the set is
still empty, then apply the final cleanup. -/
def parse_nexus_taxa (text : List Char) : Finset (List Char) :=
  let no_comments := strip_nexus_comments text
  let labels := parse_taxlabels_block no_comments
  let taxa : Finset (List Char) := if labels = [] then ∅ else labels.toFinset
  let taxa2 : Finset (List Char) :=
    if taxa = ∅ then taxa ∪ (parse_matrix_block no_comments).toFinset else taxa
  nexusClean taxa2

/-- Models `parse_fasta_taxa` (lines 132-143) on the decoded file content:
for every line starting with `>`, strip the remainder, skip it when empty,
and add its first whitespace-delimited token to the set. -/
def parse_fasta_taxa (text : List Char) : Finset (List Char) :=
  (splitlines text).foldl
    (fun taxa line =>
      match line with
      | c :: rest =>
        if c = '>' then
          let label := pyStrip rest
          if label = [] then taxa
          else insert (label.takeWhile (fun ch => !isPySpace ch)) taxa
        else taxa
      | [] => taxa) ∅

/-- The three classification results of `detect_format_from_content`. -/
inductive Fmt
  | fasta
  | nexus
  | unknown
deriving DecidableEq

/-- A file as seen by the script: `content` is the decoded text of the
file, or `none` when opening or reading the file raises an exception;
`ext` is the lower-cased `path.suffix`.  Decoding itself never fails in
the source because every read uses a forgiving error policy. -/
structure FileModel where
  content : Option (List Char)
  ext : List Char
deriving DecidableEq

/-- The extension fallback of `detect_format_from_content` (lines 163-169). -/
def extFmt (ext : List Char) : Fmt :=
  if ext = ".fasta".toList ∨ ext = ".fa".toList ∨ ext = ".fas".toList then Fmt.fasta
  else if ext = ".nex".toList ∨ ext = ".nexus".toList then Fmt.nexus
  else Fmt.unknown

/-- The content scan of `detect_format_from_content` (lines 149-160): look
at up to 50 lines, skip blank ones, classify on a line starting with `>`
or case-insensitively with `#NEXUS`. -/
def detectLines : Nat → List (List Char) → Option Fmt
  | 0, _ => none
  | _ + 1, [] => none
  | n + 1, line :: rest =>
    let s := pyStrip line
    if s = [] then detectLines n rest
    else if s.take 1 = ['>'] then some Fmt.fasta
    else if (s.take 6).map Char.toUpper = "#NEXUS".toList then some Fmt.nexus
    else detectLines n rest

/-- Models `detect_format_from_content` (lines 146-169): content sniffing
first (where a read failure is swallowed), extension fallback second. -/
def detect_format_from_content (f : FileModel) : Fmt :=
  let scanned : Option Fmt :=
    match f.content with
    | some text => detectLines 50 (splitlines text)
    | none => none
  match scanned with
  | some fmt => fmt
  | none => extFmt f.ext

/-- The exceptions that can escape an iteration of the `gather_taxa` loop:
a file read raising inside one of the parsers, or the `ValueError` raised
for an unknown format in strict mode. -/
inductive ScanError
  | readFailure
  | unknownFormat
deriving DecidableEq

/-- One iteration of the `gather_taxa` loop (lines 212-233): an error
already raised aborts the rest (strict mode re-raises); otherwise detect
the format, run the matching parser (whose file read raises exactly when
`content` is `none`), skip unknown formats unless strict, and in
non-strict mode turn any exception into a skip. -/
def gatherStep (strict : Bool) (acc : Except ScanError (Finset (List Char)))
    (f : FileModel) : Except ScanError (Finset (List Char)) :=
  match acc with
  | Except.error e => Except.error e
  | Except.ok taxa =>
    match detect_format_from_content f with
    | Fmt.fasta =>
      match f.content with
      | some text => Except.ok (taxa ∪ parse_fasta_taxa text)
      | none => if strict then Except.error ScanError.readFailure else Except.ok taxa
    | Fmt.nexus =>
      match f.content with
      | some text => Except.ok (taxa ∪ parse_nexus_taxa text)
      | none => if strict then Except.error ScanError.readFailure else Except.ok taxa
    | Fmt.unknown => if strict then Except.error ScanError.unknownFormat else Except.ok taxa

/-- Models `gather_taxa` (lines 210-234): fold the per-file step over the
file list, starting from the empty taxon set.  The `error` outcome models
an exception propagating out of the function (possible only in strict
mode). -/
def gather_taxa (files : List FileModel) (strict : Bool) :
    Except ScanError (Finset (List Char)) :=
  files.foldl (gatherStep strict) (Except.ok ∅)

/-- Models `pick_group` (lines 281-290).  The group table is modelled as
the lookup function of the Python dict; the mode string comes from
`--default-group`. -/
def pick_group (mapping : List Char → Option (List Char)) (default_group_mode : List Char)
    (t : List Char) : List Char :=
  match mapping t with
  | some g => g
  | none =>
    if default_group_mode = "species".toList then t
    else if default_group_mode = "NA".toList then "NA".toList
    else if default_group_mode = "none".toList then []
    else t

/-- Python dict assignment `mapping[k] = v` on the lookup-function model:
the new binding shadows any earlier one. -/
def dictInsert (m : List Char → Option (List Char)) (k v : List Char) :
    List Char → Option (List Char) :=
  fun x => if x = k then some v else m x

/-- Models `load_groups_csv` (lines 172-207) from the point where
`csv.reader` has produced the list of rows (each row a list of cells):
optional header detection, then one dict assignment per sufficiently long
row with a non-empty taxon cell. -/
def load_groups_rows (rows : List (List (List Char))) : List Char → Option (List Char) :=
  match rows with
  | [] => fun _ => none
  | first :: rest =>
    let header := first.map (fun c => (pyStrip c).map Char.toLower)
    let hasHeader := "taxon".toList ∈ header ∧ "group".toList ∈ header
    let tax_idx := if hasHeader then header.indexOf "taxon".toList else 0
    let grp_idx := if hasHeader then header.indexOf "group".toList else 1
    let dataRows := if hasHeader then rest else first :: rest
    dataRows.foldl
      (fun m r =>
        if r.length ≤ max tax_idx grp_idx then m
        else
          let taxon := pyStrip (r.getD tax_idx [])
          let group := pyStrip (r.getD grp_idx [])
          if taxon = [] then m else dictInsert m taxon group)
      (fun _ => none)

/-- The outcome of one run of `main` after file discovery: the process
exit status (0 for success, 2 when no file matched, 3 when no taxon was
extracted, 1 for an uncaught exception in strict mode), whether the output
map file was written, and the final taxon set. -/
structure MainResult where
  exitCode : Nat
  mapWritten : Bool
  taxa : Finset (List Char)
deriving DecidableEq

/-- Models the decision logic of `main` (lines 260-296) from the point
where the glob patterns produced `files`: `sys.exit(2)` on an empty file
list, `sys.exit(3)` on an empty taxon set, both before the map file is
opened; file writing itself is represented by the `mapWritten` flag. -/
def main_model (files : List FileModel) (strict : Bool) : MainResult :=
  if files = [] then ⟨2, false, ∅⟩
  else
    match gather_taxa files strict with
    | Except.error _ => ⟨1, false, ∅⟩
    | Except.ok taxa => if taxa = ∅ then ⟨3, false, ∅⟩ else ⟨0, true, taxa⟩

/-- Quoting style of one taxon name inside a TAXLABELS block, used to state
the mixed-quoting claim: single-quoted, double-quoted, or bare. -/
inductive QStyle
  | single
  | double
  | bare
deriving DecidableEq

/-- Render one taxon name in its quoting style. -/
def renderOne : QStyle × List Char → List Char
  | (QStyle.single, n) => squote :: n ++ [squote]
  | (QStyle.double, n) => dquote :: n ++ [dquote]
  | (QStyle.bare, n) => n

/-- Render a space-separated TAXLABELS name list. -/
def renderAll : List (QStyle × List Char) → List Char
  | [] => []
  | [p] => renderOne p
  | p :: ps => renderOne p ++ ' ' :: renderAll ps

/-- Well-formedness of one rendered name: a quoted name must not contain
its own quote character, a bare name must be non-empty and contain no
whitespace and no quote character, and no name may contain the `;` that
terminates the block. -/
def okPart : QStyle × List Char → Prop
  | (QStyle.single, n) => squote ∉ n ∧ ';' ∉ n
  | (QStyle.double, n) => dquote ∉ n ∧ ';' ∉ n
  | (QStyle.bare, n) =>
      n ≠ [] ∧ (∀ c ∈ n, isPySpace c = false) ∧ squote ∉ n ∧ dquote ∉ n ∧ ';' ∉ n

instance (p : QStyle × List Char) : Decidable (okPart p) := by
  rcases p with ⟨q, n⟩; cases q <;> (unfold okPart; infer_instance)

/-- The taxon/group cells contributed by one data row of the group table,
mirroring the guard and cleanup of the `load_groups_csv` loop. -/
def rowBinding (tax_idx grp_idx : Nat) (r : List (List Char)) :
    Option (List Char × List Char) :=
  if r.length ≤ max tax_idx grp_idx then none
  else
    let taxon := pyStrip (r.getD tax_idx [])
    if taxon = [] then none else some (taxon, pyStrip (r.getD grp_idx []))

/-- The sequence of dict assignments performed by `load_groups_csv`, in row
order: header handling as in `load_groups_rows`, then one binding per
kept row. -/
def groupBindings (rows : List (List (List Char))) : List (List Char × List Char) :=
  match rows with
  | [] => []
  | first :: rest =>
    let header := first.map (fun c => (pyStrip c).map Char.toLower)
    let hasHeader := "taxon".toList ∈ header ∧ "group".toList ∈ header
    let tax_idx := if hasHeader then header.indexOf "taxon".toList else 0
    let grp_idx := if hasHeader then header.indexOf "group".toList else 1
    let dataRows := if hasHeader then rest else first :: rest
    dataRows.filterMap (rowBinding tax_idx grp_idx)

/-- The value of the latest binding of a key in an assignment sequence. -/
def lookupLast (t : List Char) : List (List Char × List Char) → Option (List Char)
  | [] => none
  | (k, v) :: rest =>
    match lookupLast t rest with
    | some g => some g
    | none => if k = t then some v else none

theorem stripFuel_fuel_irrel :
    ∀ (k n m : Nat) (s : List Char), s.length ≤ k → s.length ≤ n → s.length ≤ m →
      stripFuel n s = stripFuel m s := by
  intro k
  induction k with
  | zero =>
    intro n m s hk _ _
    have hs : s = [] := List.length_eq_zero.mp (Nat.le_zero.mp hk)
    subst hs
    cases n <;> cases m <;> rfl
  | succ k ih =>
    intro n m s hk hn hm
    cases s with
    | nil => cases n <;> cases m <;> rfl
    | cons c rest =>
      simp only [List.length_cons] at hk hn hm
      cases n with
      | zero => omega
      | succ n1 =>
        cases m with
        | zero => omega
        | succ m1 =>
          simp only [stripFuel]
          by_cases hc : c = '['
          · simp only [if_pos hc]
            cases hdc : dropComment rest with
            | some r =>
              have hlen := dropComment_length rest r hdc
              exact ih n1 m1 r (by omega) (by omega) (by omega)
            | none =>
              rw [ih n1 m1 rest (by omega) (by omega) (by omega)]
          · simp only [if_neg hc]
            rw [ih n1 m1 rest (by omega) (by omega) (by omega)]

theorem strip_nexus_comments_cons (c : Char) (rest : List Char) :
    strip_nexus_comments (c :: rest) =
      if c = '[' then
        match dropComment rest with
        | some r => strip_nexus_comments r
        | none => c :: strip_nexus_comments rest
      else c :: strip_nexus_comments rest := by
  show stripFuel (rest.length + 1) (c :: rest) = _
  simp only [stripFuel]
  by_cases hc : c = '['
  · simp only [if_pos hc]
    cases hdc : dropComment rest with
    | some r =>
      have hlen := dropComment_length rest r hdc
      exact stripFuel_fuel_irrel rest.length rest.length r.length r (by omega) (by omega)
        (by omega)
    | none => rfl
  · simp only [if_neg hc]; rfl

theorem tokenizeFuel_fuel_irrel :
    ∀ (k n m : Nat) (l : List Char), l.length ≤ k → l.length ≤ n → l.length ≤ m →
      tokenizeFuel n l = tokenizeFuel m l := by
  intro k
  induction k with
  | zero =>
    intro n m l hk _ _
    have hl : l = [] := List.length_eq_zero.mp (Nat.le_zero.mp hk)
    subst hl
    cases n <;> cases m <;> rfl
  | succ k ih =>
    intro n m l hk hn hm
    cases l with
    | nil => cases n <;> cases m <;> rfl
    | cons c rest =>
      simp only [List.length_cons] at hk hn hm
      cases n with
      | zero => omega
      | succ n1 =>
        cases m with
        | zero => omega
        | succ m1 =>
          have hscan := scanNonWS_length rest
          simp only [tokenizeFuel]
          by_cases hws : isPySpace c
          · simp only [if_pos hws]
            exact ih n1 m1 rest (by omega) (by omega) (by omega)
          · simp only [if_neg hws]
            by_cases hsq : c = squote
            · simp only [if_pos hsq]
              cases hsp : splitAtQuote squote rest with
              | some p =>
                dsimp only
                have hlen := splitAtQuote_length rest p hsp
                rw [ih n1 m1 p.2 (by omega) (by omega) (by omega)]
              | none =>
                dsimp only
                rw [ih n1 m1 (scanNonWS rest).2 (by omega) (by omega) (by omega)]
            · simp only [if_neg hsq]
              by_cases hdq : c = dquote
              · simp only [if_pos hdq]
                cases hsp : splitAtQuote dquote rest with
                | some p =>
                  dsimp only
                  have hlen := splitAtQuote_length rest p hsp
                  rw [ih n1 m1 p.2 (by omega) (by omega) (by omega)]
                | none =>
                  dsimp only
                  rw [ih n1 m1 (scanNonWS rest).2 (by omega) (by omega) (by omega)]
              · simp only [if_neg hdq]
                rw [ih n1 m1 (scanNonWS rest).2 (by omega) (by omega) (by omega)]

theorem tokenizeAux_nil : tokenizeAux [] = [] := rfl

theorem tokenizeAux_cons (c : Char) (rest : List Char) :
    tokenizeAux (c :: rest) =
      if isPySpace c then tokenizeAux rest
      else if c = squote then
        match splitAtQuote squote rest with
        | some p => p.1 :: tokenizeAux p.2
        | none => (c :: (scanNonWS rest).1) :: tokenizeAux (scanNonWS rest).2
      else if c = dquote then
        match splitAtQuote dquote rest with
        | some p => p.1 :: tokenizeAux p.2
        | none => (c :: (scanNonWS rest).1) :: tokenizeAux (scanNonWS rest).2
      else (c :: (scanNonWS rest).1) :: tokenizeAux (scanNonWS rest).2 := by
  have hscan := scanNonWS_length rest
  show tokenizeFuel (rest.length + 1) (c :: rest) = _
  simp only [tokenizeFuel]
  by_cases hws : isPySpace c
  · simp only [if_pos hws]; rfl
  · simp only [if_neg hws]
    by_cases hsq : c = squote
    · simp only [if_pos hsq]
      cases hsp : splitAtQuote squote rest with
      | some p =>
        dsimp only
        have hlen := splitAtQuote_length rest p hsp
        rw [tokenizeFuel_fuel_irrel rest.length rest.length p.2.length p.2 (by omega)
          (by omega) (by omega)]
        rfl
      | none =>
        dsimp only
        rw [tokenizeFuel_fuel_irrel rest.length rest.length (scanNonWS rest).2.length
          (scanNonWS rest).2 (by omega) (by omega) (by omega)]
        rfl
    · simp only [if_neg hsq]
      by_cases hdq : c = dquote
      · simp only [if_pos hdq]
        cases hsp : splitAtQuote dquote rest with
        | some p =>
          dsimp only
          have hlen := splitAtQuote_length rest p hsp
          rw [tokenizeFuel_fuel_irrel rest.length rest.length p.2.length p.2 (by omega)
            (by omega) (by omega)]
          rfl
        | none =>
          dsimp only
          rw [tokenizeFuel_fuel_irrel rest.length rest.length (scanNonWS rest).2.length
            (scanNonWS rest).2 (by omega) (by omega) (by omega)]
          rfl
      · simp only [if_neg hdq]
        rw [tokenizeFuel_fuel_irrel rest.length rest.length (scanNonWS rest).2.length
          (scanNonWS rest).2 (by omega) (by omega) (by omega)]
        rfl

theorem takeWhile_append_all {α : Type} (p : α → Bool) :
    ∀ (a b : List α), (∀ c ∈ a, p c = true) →
      (a ++ b).takeWhile p = a ++ b.takeWhile p := by
  intro a
  induction a with
  | nil => intro b _; simp
  | cons x xs ih =>
    intro b h
    have hx : p x = true := h x (by simp)
    simp only [List.cons_append, List.takeWhile_cons, hx, if_true]
    rw [ih b (fun c hc => h c (by simp [hc]))]

theorem dropWhile_append_all {α : Type} (p : α → Bool) :
    ∀ (a b : List α), (∀ c ∈ a, p c = true) →
      (a ++ b).dropWhile p = b.dropWhile p := by
  intro a
  induction a with
  | nil => intro b _; simp
  | cons x xs ih =>
    intro b h
    have hx : p x = true := h x (by simp)
    simp only [List.cons_append, List.dropWhile_cons, hx]
    exact ih b (fun c hc => h c (by simp [hc]))

theorem takeWhile_eq_self_of_all {α : Type} (p : α → Bool) :
    ∀ (l : List α), (∀ c ∈ l, p c = true) → l.takeWhile p = l := by
  intro l
  induction l with
  | nil => intro _; simp
  | cons x xs ih =>
    intro h
    have hx : p x = true := h x (by simp)
    simp only [List.takeWhile_cons, hx, if_true]
    rw [ih (fun c hc => h c (by simp [hc]))]

theorem dropWhile_eq_self_of_head {α : Type} (p : α → Bool) :
    ∀ (l : List α), (∀ c, l.head? = some c → p c = false) → l.dropWhile p = l := by
  intro l h
  cases l with
  | nil => simp
  | cons x xs =>
    have hx : p x = false := h x rfl
    simp [List.dropWhile_cons, hx]

/-- `scanNonWS` is the takeWhile/dropWhile pair for the non-whitespace
predicate. -/
theorem scanNonWS_eq (l : List Char) :
    scanNonWS l = (l.takeWhile (fun c => !isPySpace c), l.dropWhile (fun c => !isPySpace c)) := by
  induction l with
  | nil => rfl
  | cons c rest ih =>
    by_cases hws : isPySpace c
    · simp [scanNonWS, List.takeWhile_cons, List.dropWhile_cons, hws]
    · simp [scanNonWS, List.takeWhile_cons, List.dropWhile_cons, hws, ih]

theorem splitAtQuote_none_iff (q : Char) :
    ∀ l, splitAtQuote q l = none ↔ q ∉ l := by
  intro l
  induction l with
  | nil => simp [splitAtQuote]
  | cons c rest ih =>
    simp only [splitAtQuote, List.mem_cons]
    by_cases hc : c = q
    · simp [hc]
    · rw [if_neg hc]
      cases hs : splitAtQuote q rest with
      | some p =>
        dsimp only
        constructor
        · intro h; cases h
        · intro h
          push_neg at h
          rw [ih.mpr h.2] at hs
          cases hs
      | none =>
        dsimp only
        have hq : q ∉ rest := ih.mp hs
        constructor
        · intro _
          rintro (h1 | h1)
          · exact hc h1.symm
          · exact hq h1
        · intro _; rfl

theorem splitAtQuote_some_parts (q : Char) :
    ∀ l p, splitAtQuote q l = some p → l = p.1 ++ q :: p.2 ∧ q ∉ p.1 := by
  intro l
  induction l with
  | nil => intro p h; cases h
  | cons c rest ih =>
    intro p h
    simp only [splitAtQuote] at h
    by_cases hc : c = q
    · rw [if_pos hc] at h
      cases h
      subst hc
      exact ⟨rfl, by simp⟩
    · rw [if_neg hc] at h
      cases hs : splitAtQuote q rest with
      | some p0 =>
        rw [hs] at h
        cases h
        obtain ⟨h1, h2⟩ := ih p0 hs
        refine ⟨by simp [h1], ?_⟩
        simp only [List.mem_cons]
        rintro (h3 | h3)
        · exact hc h3.symm
        · exact h2 h3
      | none => rw [hs] at h; cases h

theorem tokenizeFuel_chars :
    ∀ (fuel : Nat) (l tok : List Char), tok ∈ tokenizeFuel fuel l → ∀ c ∈ tok, c ∈ l := by
  intro fuel
  induction fuel with
  | zero =>
    intro l tok h
    cases l <;> simp [tokenizeFuel] at h
  | succ fuel ih =>
    intro l tok h c hc
    cases l with
    | nil => simp [tokenizeFuel] at h
    | cons d rest =>
      simp only [tokenizeFuel] at h
      by_cases hws : isPySpace d
      · rw [if_pos hws] at h
        exact List.mem_cons_of_mem d (ih rest tok h c hc)
      · rw [if_neg hws] at h
        have hscan1 : ∀ x ∈ (scanNonWS rest).1, x ∈ rest := by
          intro x hx
          rw [scanNonWS_eq] at hx
          exact (List.takeWhile_sublist _).subset hx
        have hscan2 : ∀ x ∈ (scanNonWS rest).2, x ∈ rest := by
          intro x hx
          rw [scanNonWS_eq] at hx
          exact (List.dropWhile_sublist _).subset hx
        have hplain :
            tok ∈ (d :: (scanNonWS rest).1) :: tokenizeFuel fuel (scanNonWS rest).2 →
              c ∈ d :: rest := by
          intro htok
          rcases List.mem_cons.mp htok with h1 | h1
          · subst h1
            rcases List.mem_cons.mp hc with h2 | h2
            · simp [h2]
            · exact List.mem_cons_of_mem d (hscan1 c h2)
          · exact List.mem_cons_of_mem d (hscan2 c (ih _ tok h1 c hc))
        by_cases hsq : d = squote
        · rw [if_pos hsq] at h
          cases hsp : splitAtQuote squote rest with
          | some p =>
            rw [hsp] at h
            dsimp only at h
            obtain ⟨heq, _⟩ := splitAtQuote_some_parts squote rest p hsp
            rcases List.mem_cons.mp h with h1 | h1
            · subst h1
              apply List.mem_cons_of_mem d
              rw [heq]
              exact List.mem_append_left _ hc
            · apply List.mem_cons_of_mem d
              rw [heq]
              refine List.mem_append_right _ ?_
              exact List.mem_cons_of_mem squote (ih _ tok h1 c hc)
          | none =>
            rw [hsp] at h
            exact hplain h
        · rw [if_neg hsq] at h
          by_cases hdq : d = dquote
          · rw [if_pos hdq] at h
            cases hsp : splitAtQuote dquote rest with
            | some p =>
              rw [hsp] at h
              dsimp only at h
              obtain ⟨heq, _⟩ := splitAtQuote_some_parts dquote rest p hsp
              rcases List.mem_cons.mp h with h1 | h1
              · subst h1
                apply List.mem_cons_of_mem d
                rw [heq]
                exact List.mem_append_left _ hc
              · apply List.mem_cons_of_mem d
                rw [heq]
                refine List.mem_append_right _ ?_
                exact List.mem_cons_of_mem dquote (ih _ tok h1 c hc)
            | none =>
              rw [hsp] at h
              exact hplain h
          · rw [if_neg hdq] at h
            exact hplain h

theorem pyStrip_subset : ∀ (l : List Char), ∀ c ∈ pyStrip l, c ∈ l := by
  intro l c hc
  unfold pyStrip at hc
  rw [List.mem_reverse] at hc
  have h1 := (@List.dropWhile_sublist Char ((l.dropWhile isPySpace).reverse) isPySpace).subset hc
  rw [List.mem_reverse] at h1
  exact (List.dropWhile_sublist isPySpace).subset h1

theorem tokenize_chars :
    ∀ (l tok : List Char), tok ∈ tokenize l → ∀ c ∈ tok, c ∈ l := by
  intro l tok h c hc
  exact pyStrip_subset l c (tokenizeFuel_chars (pyStrip l).length (pyStrip l) tok h c hc)

theorem splitlinesGo_chars :
    ∀ (acc l : List Char), ∀ line ∈ splitlinesGo acc l, ∀ c ∈ line, c ∈ acc ∨ c ∈ l := by
  intro acc l
  induction acc, l using splitlinesGo.induct with
  | case1 acc =>
    intro line hline c hc
    simp only [splitlinesGo, List.mem_singleton] at hline
    subst hline
    exact Or.inl (List.mem_reverse.mp hc)
  | case2 acc =>
    intro line hline c hc
    simp [splitlinesGo] at hline
    subst hline
    exact Or.inl (List.mem_reverse.mp hc)
  | case3 acc h1 =>
    intro line hline c hc
    simp [splitlinesGo] at hline
    subst hline
    exact Or.inl (List.mem_reverse.mp hc)
  | case4 acc d h1 h2 =>
    intro line hline c hc
    simp [splitlinesGo, h1, h2] at hline
    subst hline
    rw [List.mem_append, List.mem_reverse, List.mem_singleton] at hc
    rcases hc with hc | hc
    · exact Or.inl hc
    · exact Or.inr (by simp [hc])
  | case5 acc d2 rest ih =>
    intro line hline c hc
    have heq : splitlinesGo acc ('\n' :: d2 :: rest) = acc.reverse :: splitlinesGo [] (d2 :: rest) := by
      rw [splitlinesGo.eq_def]; simp
    rw [heq, List.mem_cons] at hline
    rcases hline with hline | hline
    · subst hline
      exact Or.inl (List.mem_reverse.mp hc)
    · rcases ih line hline c hc with h | h
      · simp at h
      · exact Or.inr (by simp [List.mem_cons.mp h])
  | case6 acc h1 =>
    intro line hline c hc
    simp [splitlinesGo] at hline
    subst hline
    exact Or.inl (List.mem_reverse.mp hc)
  | case7 acc d3 rest3 h1 ih =>
    intro line hline c hc
    simp [splitlinesGo, List.mem_cons] at hline
    rcases hline with hline | hline
    · subst hline
      exact Or.inl (List.mem_reverse.mp hc)
    · rcases ih line hline c hc with h | h
      · simp at h
      · rw [List.mem_cons] at h
        exact Or.inr (by simp; tauto)
  | case8 acc d2 rest h1 h2 ih =>
    intro line hline c hc
    have heq : splitlinesGo acc ('\x0d' :: d2 :: rest) = acc.reverse :: splitlinesGo [] (d2 :: rest) := by
      rw [splitlinesGo.eq_def]; simp [h1]
    rw [heq, List.mem_cons] at hline
    rcases hline with hline | hline
    · subst hline
      exact Or.inl (List.mem_reverse.mp hc)
    · rcases ih line hline c hc with h | h
      · simp at h
      · rw [List.mem_cons] at h
        exact Or.inr (by simp; tauto)
  | case9 acc d d2 rest h1 h2 ih =>
    intro line hline c hc
    have heq : splitlinesGo acc (d :: d2 :: rest) = splitlinesGo (d :: acc) (d2 :: rest) := by
      rw [splitlinesGo.eq_def]; simp [h1, h2]
    rw [heq] at hline
    rcases ih line hline c hc with h | h
    · rw [List.mem_cons] at h
      rcases h with h | h
      · exact Or.inr (by simp [h])
      · exact Or.inl h
    · rw [List.mem_cons] at h
      exact Or.inr (by simp; tauto)

theorem splitlines_chars :
    ∀ (l : List Char), ∀ line ∈ splitlines l, ∀ c ∈ line, c ∈ l := by
  intro l line hline c hc
  cases l with
  | nil => simp [splitlines] at hline
  | cons d rest =>
    have := splitlinesGo_chars [] (d :: rest) line hline c hc
    rcases this with h | h
    · simp at h
    · exact h

theorem dropWhile_head_false {α : Type} (p : α → Bool) :
    ∀ (l : List α) (c : α), (l.dropWhile p).head? = some c → p c = false := by
  intro l
  induction l with
  | nil => intro c h; simp at h
  | cons x xs ih =>
    intro c h
    rw [List.dropWhile_cons] at h
    by_cases hx : p x
    · rw [if_pos hx] at h
      exact ih c h
    · rw [if_neg hx] at h
      simp at h
      subst h
      exact Bool.eq_false_iff.mpr hx

theorem dropWhile_idem {α : Type} (p : α → Bool) (l : List α) :
    (l.dropWhile p).dropWhile p = l.dropWhile p :=
  dropWhile_eq_self_of_head p _ (dropWhile_head_false p l)

/-- Every list splits into its right-trimmed part followed by its trailing
whitespace. -/
theorem rtrim_decomp (m : List Char) :
    m = (m.reverse.dropWhile isPySpace).reverse ++ (m.reverse.takeWhile isPySpace).reverse ∧
      ∀ c ∈ (m.reverse.takeWhile isPySpace).reverse, isPySpace c = true := by
  constructor
  · have h := List.takeWhile_append_dropWhile isPySpace m.reverse
    calc m = m.reverse.reverse := by rw [List.reverse_reverse]
    _ = (m.reverse.takeWhile isPySpace ++ m.reverse.dropWhile isPySpace).reverse := by rw [h]
    _ = _ := by rw [List.reverse_append]
  · intro c hc
    rw [List.mem_reverse] at hc
    exact List.mem_takeWhile_imp hc

theorem pyStrip_dropWhile (l : List Char) :
    (pyStrip l).dropWhile isPySpace = pyStrip l := by
  apply dropWhile_eq_self_of_head
  intro c hc
  unfold pyStrip at hc
  set m := l.dropWhile isPySpace with hm
  have hdec := (rtrim_decomp m).1
  cases hd : (m.reverse.dropWhile isPySpace).reverse with
  | nil => rw [hd] at hc; cases hc
  | cons x xs =>
    rw [hd] at hc
    have hcx : x = c := Option.some.inj hc
    subst hcx
    have hx : m.head? = some x := by rw [hdec, hd]; rfl
    rw [hm] at hx
    exact dropWhile_head_false isPySpace l x hx

theorem pyStrip_idem (l : List Char) : pyStrip (pyStrip l) = pyStrip l := by
  have h1 : (pyStrip l).dropWhile isPySpace = pyStrip l := pyStrip_dropWhile l
  show (((pyStrip l).dropWhile isPySpace).reverse.dropWhile isPySpace).reverse = pyStrip l
  rw [h1]
  show ((((l.dropWhile isPySpace).reverse.dropWhile isPySpace).reverse).reverse.dropWhile
    isPySpace).reverse = pyStrip l
  rw [List.reverse_reverse, dropWhile_idem]
  rfl

theorem rstripSemi_eq_self (l : List Char) (h : ';' ∉ l) : rstripSemi l = l := by
  unfold rstripSemi
  have h2 : l.reverse.dropWhile (fun c => c == ';') = l.reverse := by
    apply dropWhile_eq_self_of_head
    intro c hc
    cases hrev : l.reverse with
    | nil => rw [hrev] at hc; cases hc
    | cons x xs =>
      rw [hrev] at hc
      have hcx : x = c := Option.some.inj hc
      subst hcx
      have hxl : x ∈ l := by
        rw [← List.mem_reverse, hrev]; simp
      simp only [beq_eq_false_iff_ne, ne_eq]
      intro heq; subst heq; exact h hxl
  rw [h2, List.reverse_reverse]

/-- Every label produced by the TAXLABELS parser comes from the segment cut
off before the terminating `;`, so it contains no semicolon. -/
theorem parse_taxlabels_block_no_semi :
    ∀ (text l : List Char), l ∈ parse_taxlabels_block text → ';' ∉ l := by
  intro text l hmem hsemi
  unfold parse_taxlabels_block at hmem
  cases hf : findCI "taxlabels".toList text with
  | none => rw [hf] at hmem; cases hmem
  | some sub =>
    rw [hf] at hmem
    dsimp only at hmem
    by_cases hin : ';' ∈ sub
    · rw [if_pos hin] at hmem
      have hchar : ';' ∈ sub.takeWhile (fun c => !(c == ';')) := by
        by_cases hkw : checkCI "taxlabels".toList (sub.takeWhile (fun c => !(c == ';')))
        · rw [if_pos hkw] at hmem
          have h1 := tokenize_chars _ l hmem ';' hsemi
          have h2 := pyStrip_subset _ ';' h1
          exact List.drop_subset _ _ h2
        · rw [if_neg hkw] at hmem
          have h1 := tokenize_chars _ l hmem ';' hsemi
          exact pyStrip_subset _ ';' h1
      have := List.mem_takeWhile_imp hchar
      simp at this
    · rw [if_neg hin] at hmem
      cases hmem

/-- Every label produced by the MATRIX fallback comes from the segment cut
off before the terminating `;` (or, with no `;` present, from a remainder
without semicolons), so it contains no semicolon. -/
theorem parse_matrix_block_no_semi :
    ∀ (text l : List Char), l ∈ parse_matrix_block text → ';' ∉ l := by
  intro text l hmem hsemi
  unfold parse_matrix_block at hmem
  cases hf : findCI "matrix".toList text with
  | none => rw [hf] at hmem; cases hmem
  | some s =>
    rw [hf] at hmem
    dsimp only at hmem
    rw [List.mem_filterMap] at hmem
    obtain ⟨raw, hraw, hlab⟩ := hmem
    have hchar : ';' ∈ raw := by
      unfold matrixRowLabel at hlab
      dsimp only at hlab
      by_cases h1 : pyStrip raw = []
      · rw [if_pos h1] at hlab; cases hlab
      · rw [if_neg h1] at hlab
        by_cases h2 : startsWithKeyword (pyStrip raw)
        · rw [if_pos h2] at hlab; cases hlab
        · rw [if_neg h2] at hlab
          cases ht : tokenize (pyStrip raw) with
          | nil => rw [ht] at hlab; cases hlab
          | cons t ts =>
            rw [ht] at hlab
            cases hlab
            have hmem2 : l ∈ tokenize (pyStrip raw) := by rw [ht]; simp
            have h3 := tokenize_chars _ l hmem2 ';' hsemi
            have h4 := pyStrip_subset _ ';' h3
            exact h4
    have hsub : ';' ∈ (if ';' ∈ s.drop 6 then
        (s.drop 6).takeWhile (fun c => !(c == ';')) else s.drop 6) := by
      exact splitlines_chars _ raw hraw ';' hchar
    by_cases hin : ';' ∈ s.drop 6
    · rw [if_pos hin] at hsub
      have := List.mem_takeWhile_imp hsub
      simp at this
    · rw [if_neg hin] at hsub
      exact hin hsub

theorem parse_nexus_taxa_sources :
    ∀ (text l : List Char), l ∈ parse_nexus_taxa text →
      ∃ l0, (';' ∉ l0) ∧ pyStrip l0 ≠ [] ∧ l = rstripSemi (pyStrip l0) := by
  intro text l hmem
  unfold parse_nexus_taxa nexusClean at hmem
  rw [Finset.mem_image] at hmem
  obtain ⟨l0, hl0, hf⟩ := hmem
  rw [Finset.mem_filter] at hl0
  obtain ⟨hl0in, hl0ne⟩ := hl0
  refine ⟨l0, ?_, hl0ne, hf.symm⟩
  set nc := strip_nexus_comments text with hnc
  have hsrc : l0 ∈ parse_taxlabels_block nc ∨ l0 ∈ parse_matrix_block nc := by
    by_cases hlab : parse_taxlabels_block nc = []
    · rw [if_pos hlab] at hl0in
      rw [if_pos rfl] at hl0in
      rcases Finset.mem_union.mp hl0in with h | h
      · simp at h
      · exact Or.inr (List.mem_toFinset.mp h)
    · rw [if_neg hlab] at hl0in
      rw [if_neg (by
        intro hempty
        exact hlab ((List.toFinset_eq_empty_iff _).mp hempty))] at hl0in
      exact Or.inl (List.mem_toFinset.mp hl0in)
  rcases hsrc with h | h
  · exact parse_taxlabels_block_no_semi nc l0 h
  · exact parse_matrix_block_no_semi nc l0 h

theorem head_not_ws_of_pyStrip :
    ∀ (l : List Char) (x : Char) (xs : List Char),
      pyStrip l = x :: xs → isPySpace x = false := by
  intro l x xs h
  have hd := pyStrip_dropWhile l
  rw [h] at hd
  by_cases hx : isPySpace x
  · exfalso
    rw [List.dropWhile_cons, if_pos hx] at hd
    have hsub := (@List.dropWhile_sublist Char xs isPySpace).length_le
    rw [hd] at hsub
    simp at hsub
  · exact Bool.eq_false_iff.mpr hx

theorem fasta_foldl_mem (l : List Char) :
    ∀ (lines : List (List Char)) (acc : Finset (List Char)),
      (l ∈ lines.foldl
        (fun taxa line =>
          match line with
          | c :: rest =>
            if c = '>' then
              let label := pyStrip rest
              if label = [] then taxa
              else insert (label.takeWhile (fun ch => !isPySpace ch)) taxa
            else taxa
          | [] => taxa) acc) ↔
      (l ∈ acc ∨ ∃ rest, ('>' :: rest) ∈ lines ∧ pyStrip rest ≠ [] ∧
        l = (pyStrip rest).takeWhile (fun ch => !isPySpace ch)) := by
  intro lines
  induction lines with
  | nil => intro acc; simp
  | cons hd tl ih =>
    intro acc
    rw [List.foldl_cons, ih]
    cases hd with
    | nil =>
      dsimp only
      constructor
      · rintro (h | ⟨rest, h1, h2, h3⟩)
        · exact Or.inl h
        · exact Or.inr ⟨rest, List.mem_cons_of_mem _ h1, h2, h3⟩
      · rintro (h | ⟨rest, h1, h2, h3⟩)
        · exact Or.inl h
        · rw [List.mem_cons] at h1
          rcases h1 with h1 | h1
          · cases h1
          · exact Or.inr ⟨rest, h1, h2, h3⟩
    | cons c rest0 =>
      dsimp only
      by_cases hc : c = '>'
      · rw [if_pos hc]
        subst hc
        by_cases hlab : pyStrip rest0 = []
        · rw [if_pos hlab]
          constructor
          · rintro (h | ⟨rest, h1, h2, h3⟩)
            · exact Or.inl h
            · exact Or.inr ⟨rest, List.mem_cons_of_mem _ h1, h2, h3⟩
          · rintro (h | ⟨rest, h1, h2, h3⟩)
            · exact Or.inl h
            · rw [List.mem_cons] at h1
              rcases h1 with h1 | h1
              · have he : rest = rest0 := by injection h1
                subst he
                exact absurd hlab h2
              · exact Or.inr ⟨rest, h1, h2, h3⟩
        · rw [if_neg hlab]
          constructor
          · rintro (h | ⟨rest, h1, h2, h3⟩)
            · rcases Finset.mem_insert.mp h with h | h
              · exact Or.inr ⟨rest0, List.mem_cons_self _ _, hlab, h⟩
              · exact Or.inl h
            · exact Or.inr ⟨rest, List.mem_cons_of_mem _ h1, h2, h3⟩
          · rintro (h | ⟨rest, h1, h2, h3⟩)
            · exact Or.inl (Finset.mem_insert_of_mem h)
            · rw [List.mem_cons] at h1
              rcases h1 with h1 | h1
              · have he : rest = rest0 := by injection h1
                subst he
                exact Or.inl (by rw [h3]; exact Finset.mem_insert_self _ _)
              · exact Or.inr ⟨rest, h1, h2, h3⟩
      · rw [if_neg hc]
        constructor
        · rintro (h | ⟨rest, h1, h2, h3⟩)
          · exact Or.inl h
          · exact Or.inr ⟨rest, List.mem_cons_of_mem _ h1, h2, h3⟩
        · rintro (h | ⟨rest, h1, h2, h3⟩)
          · exact Or.inl h
          · rw [List.mem_cons] at h1
            rcases h1 with h1 | h1
            · exfalso
              apply hc
              have : '>' = c := by injection h1
              exact this.symm
            · exact Or.inr ⟨rest, h1, h2, h3⟩

/-- Membership characterization of the FASTA extractor: exactly the first
whitespace-delimited tokens of the non-empty stripped remainders of the
lines starting with the `>` marker. -/
theorem parse_fasta_taxa_mem_iff (text l : List Char) :
    l ∈ parse_fasta_taxa text ↔
      ∃ rest, ('>' :: rest) ∈ splitlines text ∧ pyStrip rest ≠ [] ∧
        l = (pyStrip rest).takeWhile (fun ch => !isPySpace ch) := by
  unfold parse_fasta_taxa
  rw [fasta_foldl_mem]
  simp

theorem parse_fasta_taxa_clean :
    ∀ (text l : List Char), l ∈ parse_fasta_taxa text →
      l ≠ [] ∧ ∀ c ∈ l, isPySpace c = false := by
  intro text l hmem
  rw [parse_fasta_taxa_mem_iff] at hmem
  obtain ⟨rest, _, h2, h3⟩ := hmem
  constructor
  · cases hs : pyStrip rest with
    | nil => exact absurd hs h2
    | cons x xs =>
      have hx : isPySpace x = false := head_not_ws_of_pyStrip rest x xs hs
      rw [h3, hs, List.takeWhile_cons]
      simp [hx]
  · intro c hc
    rw [h3] at hc
    have := List.mem_takeWhile_imp hc
    simp at this
    exact this

/-- Claim C3: for every NEXUS text, when the TAXLABELS step yields at least
one candidate label the extractor result is the cleanup of exactly those
labels and the MATRIX fallback is never merged in; the MATRIX fallback
determines the result only when the TAXLABELS step yields zero labels. -/
theorem c3_taxlabels_priority (text : List Char) :
    (parse_taxlabels_block (strip_nexus_comments text) ≠ [] →
      parse_nexus_taxa text =
        nexusClean (parse_taxlabels_block (strip_nexus_comments text)).toFinset) ∧
    (parse_taxlabels_block (strip_nexus_comments text) = [] →
      parse_nexus_taxa text =
        nexusClean (parse_matrix_block (strip_nexus_comments text)).toFinset) := by
  constructor
  · intro h
    simp only [parse_nexus_taxa]
    rw [if_neg h]
    rw [if_neg (by
      intro hempty
      exact h ((List.toFinset_eq_empty_iff _).mp hempty))]
  · intro h
    simp only [parse_nexus_taxa]
    rw [if_pos h, if_pos rfl, Finset.empty_union]

/-- Witness for claim C3 at a concrete NEXUS text whose TAXLABELS block is
present. -/
theorem c3_taxlabels_priority_witness :
    parse_nexus_taxa "#NEXUS taxlabels A B;".toList =
      nexusClean (parse_taxlabels_block
        (strip_nexus_comments "#NEXUS taxlabels A B;".toList)).toFinset :=
  (c3_taxlabels_priority "#NEXUS taxlabels A B;".toList).1 (by decide)

/-- Counterexample for claim C2 as stated: the FASTA extractor promotes the
header token of `>t;` into the final set without stripping its trailing
semicolon. -/
theorem c2_counterexample :
    "t;".toList ∈ parse_fasta_taxa ">t;\n".toList ∧
      rstripSemi "t;".toList ≠ "t;".toList := by
  constructor
  · decide
  · decide

/-- Claim C2 (amended): every label in a NEXUS result set is non-empty,
whitespace-trimmed, and free of trailing semicolons; every label in a
FASTA result set is non-empty and contains no whitespace at all (hence is
trimmed), but may retain a trailing semicolon. -/
theorem c2_label_cleanliness :
    (∀ text l, l ∈ parse_nexus_taxa text →
      l ≠ [] ∧ pyStrip l = l ∧ rstripSemi l = l) ∧
    (∀ text l, l ∈ parse_fasta_taxa text →
      l ≠ [] ∧ ∀ c ∈ l, isPySpace c = false) := by
  constructor
  · intro text l hmem
    obtain ⟨l0, hns, hne, heq⟩ := parse_nexus_taxa_sources text l hmem
    have hns2 : ';' ∉ pyStrip l0 := fun hc => hns (pyStrip_subset l0 ';' hc)
    have heq2 : l = pyStrip l0 := heq.trans (rstripSemi_eq_self _ hns2)
    refine ⟨?_, ?_, ?_⟩
    · rw [heq2]; exact hne
    · rw [heq2, pyStrip_idem]
    · rw [heq2]; exact rstripSemi_eq_self _ hns2
  · exact parse_fasta_taxa_clean

/-- Witness for the amended claim C2, at one NEXUS and one FASTA input. -/
theorem c2_label_cleanliness_witness :
    ("A".toList ≠ [] ∧ pyStrip "A".toList = "A".toList ∧
      rstripSemi "A".toList = "A".toList) ∧
    ("taxA".toList ≠ [] ∧ ∀ c ∈ "taxA".toList, isPySpace c = false) :=
  ⟨c2_label_cleanliness.1 "taxlabels A;".toList "A".toList (by decide),
   c2_label_cleanliness.2 ">taxA\n".toList "taxA".toList (by decide)⟩

theorem checkCI_length (pat s : List Char) (h : checkCI pat s) : pat.length ≤ s.length := by
  unfold checkCI at h
  have := congrArg List.length h
  simp at this
  omega

theorem findCI_length (pat : List Char) :
    ∀ (t s : List Char), findCI pat t = some s → pat.length ≤ s.length := by
  intro t
  induction t with
  | nil =>
    intro s h
    unfold findCI at h
    by_cases hc : checkCI pat []
    · rw [if_pos hc] at h
      cases h
      exact checkCI_length pat [] hc
    · rw [if_neg hc] at h; cases h
  | cons c rest ih =>
    intro s h
    unfold findCI at h
    by_cases hc : checkCI pat (c :: rest)
    · rw [if_pos hc] at h
      cases h
      exact checkCI_length pat _ hc
    · rw [if_neg hc] at h
      exact ih s h

theorem findCI_suffix_length (pat : List Char) :
    ∀ (t s : List Char), findCI pat t = some s → s.length ≤ t.length := by
  intro t
  induction t with
  | nil =>
    intro s h
    unfold findCI at h
    by_cases hc : checkCI pat []
    · rw [if_pos hc] at h; cases h; simp
    · rw [if_neg hc] at h; cases h
  | cons c rest ih =>
    intro s h
    unfold findCI at h
    by_cases hc : checkCI pat (c :: rest)
    · rw [if_pos hc] at h; cases h; simp
    · rw [if_neg hc] at h
      have := ih s h
      simp
      omega

/-- Appending text after the first case-insensitive occurrence of a
pattern does not move that occurrence. -/
theorem findCI_append (pat : List Char) :
    ∀ (t u s : List Char), findCI pat t = some s →
      findCI pat (t ++ u) = some (s ++ u) := by
  intro t
  induction t with
  | nil =>
    intro u s h
    unfold findCI at h
    by_cases hc : checkCI pat []
    · rw [if_pos hc] at h
      cases h
      have hpat : pat = [] := by
        have := checkCI_length pat [] hc
        simp at this
        exact this
      subst hpat
      have hall : ∀ x : List Char, findCI [] x = some x := by
        intro x
        cases x with
        | nil => rfl
        | cons y ys =>
          unfold findCI
          rw [if_pos (by unfold checkCI; simp)]
      simpa using hall u
    · rw [if_neg hc] at h; cases h
  | cons c rest ih =>
    intro u s h
    unfold findCI at h
    by_cases hc : checkCI pat (c :: rest)
    · rw [if_pos hc] at h
      cases h
      have hlen : pat.length ≤ (c :: rest).length := checkCI_length pat _ hc
      have hck : checkCI pat ((c :: rest) ++ u) := by
        unfold checkCI at hc ⊢
        rw [List.take_append_of_le_length hlen]
        exact hc
      simp only [List.cons_append] at hck
      show findCI pat (c :: (rest ++ u)) = _
      unfold findCI
      rw [if_pos hck]
      simp
    · rw [if_neg hc] at h
      have hck2 : ¬ checkCI pat ((c :: rest) ++ u) := by
        intro hck
        by_cases hl : pat.length ≤ (c :: rest).length
        · apply hc
          unfold checkCI at hck ⊢
          rw [List.take_append_of_le_length hl] at hck
          exact hck
        · have h1 := findCI_length pat rest s h
          have h2 := findCI_suffix_length pat rest s h
          simp at hl
          omega
      simp only [List.cons_append] at hck2
      show findCI pat (c :: (rest ++ u)) = _
      unfold findCI
      rw [if_neg hck2]
      exact ih u s h

/-- Counterexample for claim C1 as stated: in `matrix` followed by a data
row and no semicolon anywhere, the fallback extracts the row label
`taxA` instead of yielding no labels. -/
theorem c1_counterexample :
    findCI "matrix".toList "matrix\ntaxA ACGT".toList =
        some "matrix\ntaxA ACGT".toList ∧
      (';' ∉ "matrix\ntaxA ACGT".toList.drop 6) ∧
      parse_matrix_block "matrix\ntaxA ACGT".toList = ["taxA".toList] ∧
      parse_matrix_block "matrix\ntaxA ACGT".toList ≠ [] := by
  refine ⟨by decide, by decide, by decide, by decide⟩

/-- Claim C1 (amended): when `matrix` occurs case-insensitively but no `;`
occurs after it, the fallback does not yield no labels; it processes the
whole remainder, behaving exactly as if the text were terminated by one
final `;`. -/
theorem c1_matrix_no_terminator (text s : List Char)
    (h1 : findCI "matrix".toList text = some s)
    (h2 : ';' ∉ s.drop 6) :
    parse_matrix_block text = parse_matrix_block (text ++ [';']) := by
  unfold parse_matrix_block
  rw [h1, findCI_append "matrix".toList text [';'] s h1]
  dsimp only
  have hlen : 6 ≤ s.length := findCI_length "matrix".toList text s h1
  have hdrop : (s ++ [';']).drop 6 = s.drop 6 ++ [';'] :=
    List.drop_append_of_le_length hlen
  rw [hdrop]
  rw [if_neg h2, if_pos (by simp)]
  have htw : (s.drop 6 ++ [';']).takeWhile (fun c => !(c == ';')) = s.drop 6 := by
    rw [takeWhile_append_all _ _ _ (fun c hc => by
      have hne : c ≠ ';' := fun he => h2 (he ▸ hc)
      simp [hne])]
    simp
  rw [htw]

/-- Witness for the amended claim C1 at a concrete unterminated matrix. -/
theorem c1_matrix_no_terminator_witness :
    parse_matrix_block "matrix\ntaxB AC".toList =
      parse_matrix_block ("matrix\ntaxB AC".toList ++ [';']) :=
  c1_matrix_no_terminator "matrix\ntaxB AC".toList "matrix\ntaxB AC".toList
    (by decide) (by decide)

theorem tokenizeFuel_all_ws :
    ∀ (fuel : Nat) (w : List Char), (∀ c ∈ w, isPySpace c = true) →
      tokenizeFuel fuel w = [] := by
  intro fuel
  induction fuel with
  | zero => intro w _; cases w <;> rfl
  | succ fuel ih =>
    intro w hw
    cases w with
    | nil => rfl
    | cons c rest =>
      simp only [tokenizeFuel]
      rw [if_pos (hw c (by simp))]
      exact ih rest (fun x hx => hw x (by simp [hx]))

theorem tokenizeAux_all_ws (w : List Char) (hw : ∀ c ∈ w, isPySpace c = true) :
    tokenizeAux w = [] :=
  tokenizeFuel_all_ws w.length w hw

theorem splitAtQuote_append_some (q : Char) :
    ∀ (l : List Char) (p : List Char × List Char) (w : List Char),
      splitAtQuote q l = some p → splitAtQuote q (l ++ w) = some (p.1, p.2 ++ w) := by
  intro l
  induction l with
  | nil => intro p w h; cases h
  | cons c rest ih =>
    intro p w h
    rw [List.cons_append]
    simp only [splitAtQuote] at h ⊢
    by_cases hc : c = q
    · rw [if_pos hc] at h ⊢
      cases h
      rfl
    · rw [if_neg hc] at h ⊢
      cases hs : splitAtQuote q rest with
      | some p0 =>
        rw [hs] at h
        dsimp only at h
        cases h
        rw [ih p0 w hs]
      | none => rw [hs] at h; cases h

theorem splitAtQuote_append_none (q : Char) (l w : List Char)
    (h : splitAtQuote q l = none) (hw : q ∉ w) :
    splitAtQuote q (l ++ w) = none := by
  rw [splitAtQuote_none_iff] at h ⊢
  intro hmem
  rcases List.mem_append.mp hmem with h1 | h1
  · exact h h1
  · exact hw h1

theorem scanNonWS_snd_nil_append (l w : List Char)
    (h : (scanNonWS l).2 = []) (hw : ∀ c ∈ w, isPySpace c = true) :
    scanNonWS (l ++ w) = ((scanNonWS l).1, w) := by
  rw [scanNonWS_eq] at h ⊢
  rw [scanNonWS_eq]
  dsimp only at h ⊢
  have hall : ∀ c ∈ l, (fun c => !isPySpace c) c = true := by
    rw [← List.dropWhile_eq_nil_iff]
    exact h
  rw [takeWhile_append_all _ _ _ hall, dropWhile_append_all _ _ _ hall]
  have h1 : w.takeWhile (fun c => !isPySpace c) = [] := by
    cases w with
    | nil => rfl
    | cons d ds =>
      rw [List.takeWhile_cons]
      rw [if_neg (by simp [hw d (by simp)])]
  have h2 : w.dropWhile (fun c => !isPySpace c) = w := by
    apply dropWhile_eq_self_of_head
    intro d hd
    cases w with
    | nil => cases hd
    | cons x xs =>
      have : x = d := Option.some.inj hd
      subst this
      simp [hw x (by simp)]
  rw [h1, h2]
  rw [takeWhile_eq_self_of_all _ l hall]
  simp

theorem scanNonWS_snd_cons_append (l w : List Char)
    (h : (scanNonWS l).2 ≠ []) :
    scanNonWS (l ++ w) = ((scanNonWS l).1, (scanNonWS l).2 ++ w) := by
  rw [scanNonWS_eq] at h
  rw [scanNonWS_eq, scanNonWS_eq]
  dsimp only at h ⊢
  cases hd : l.dropWhile (fun c => !isPySpace c) with
  | nil => rw [hd] at h; exact absurd rfl h
  | cons x xs =>
    have hx : (!isPySpace x) = false :=
      dropWhile_head_false (fun c => !isPySpace c) l x (by rw [hd]; rfl)
    have hsplit : l = l.takeWhile (fun c => !isPySpace c) ++ (x :: xs) := by
      conv_lhs => rw [← List.takeWhile_append_dropWhile (fun c => !isPySpace c) l]
      rw [hd]
    have hallt : ∀ c ∈ l.takeWhile (fun c => !isPySpace c), (!isPySpace c) = true := by
      intro c hc
      exact @List.mem_takeWhile_imp Char (fun ch => !isPySpace ch) l c hc
    have h1 : (l ++ w).takeWhile (fun c => !isPySpace c) =
        l.takeWhile (fun c => !isPySpace c) := by
      conv_lhs => rw [hsplit]
      rw [List.append_assoc, takeWhile_append_all _ _ _ hallt, List.cons_append,
        List.takeWhile_cons, if_neg (by simp [hx])]
      simp
    have h2 : (l ++ w).dropWhile (fun c => !isPySpace c) = (x :: xs) ++ w := by
      conv_lhs => rw [hsplit]
      rw [List.append_assoc, dropWhile_append_all _ _ _ hallt, List.cons_append,
        List.dropWhile_cons, if_neg (by simp [hx])]
    rw [h1, h2]

/-- Appending trailing whitespace never changes the token list. -/
theorem tokenizeAux_append_ws :
    ∀ (n : Nat) (l w : List Char), l.length ≤ n → (∀ c ∈ w, isPySpace c = true) →
      tokenizeAux (l ++ w) = tokenizeAux l := by
  intro n
  induction n with
  | zero =>
    intro l w hn hw
    have hl : l = [] := List.length_eq_zero.mp (Nat.le_zero.mp hn)
    subst hl
    simp only [List.nil_append, tokenizeAux_nil]
    exact tokenizeAux_all_ws w hw
  | succ n ih =>
    intro l w hn hw
    cases l with
    | nil =>
      simp only [List.nil_append, tokenizeAux_nil]
      exact tokenizeAux_all_ws w hw
    | cons c rest =>
      simp only [List.length_cons] at hn
      rw [List.cons_append, tokenizeAux_cons, tokenizeAux_cons]
      by_cases hws : isPySpace c
      · rw [if_pos hws, if_pos hws]
        exact ih rest w (by omega) hw
      · rw [if_neg hws, if_neg hws]
        have hq : ∀ q : Char, isPySpace q = false → q ∉ w := by
          intro q hqws hqw
          rw [hw q hqw] at hqws
          cases hqws
        have hplain :
            ((c :: (scanNonWS (rest ++ w)).1) :: tokenizeAux (scanNonWS (rest ++ w)).2) =
            ((c :: (scanNonWS rest).1) :: tokenizeAux (scanNonWS rest).2) := by
          by_cases hsnil : (scanNonWS rest).2 = []
          · rw [scanNonWS_snd_nil_append rest w hsnil hw]
            dsimp only
            rw [hsnil, tokenizeAux_nil, tokenizeAux_all_ws w hw]
          · rw [scanNonWS_snd_cons_append rest w hsnil]
            dsimp only
            rw [ih (scanNonWS rest).2 w (by have := scanNonWS_length rest; omega) hw]
        by_cases hsq : c = squote
        · rw [if_pos hsq, if_pos hsq]
          cases hsp : splitAtQuote squote rest with
          | some p =>
            rw [splitAtQuote_append_some squote rest p w hsp]
            dsimp only
            have hlen := splitAtQuote_length rest p hsp
            rw [ih p.2 w (by omega) hw]
          | none =>
            rw [splitAtQuote_append_none squote rest w hsp (hq squote (by decide))]
            dsimp only
            exact hplain
        · rw [if_neg hsq, if_neg hsq]
          by_cases hdq : c = dquote
          · rw [if_pos hdq, if_pos hdq]
            cases hsp : splitAtQuote dquote rest with
            | some p =>
              rw [splitAtQuote_append_some dquote rest p w hsp]
              dsimp only
              have hlen := splitAtQuote_length rest p hsp
              rw [ih p.2 w (by omega) hw]
            | none =>
              rw [splitAtQuote_append_none dquote rest w hsp (hq dquote (by decide))]
              dsimp only
              exact hplain
          · rw [if_neg hdq, if_neg hdq]
            exact hplain

/-- Dropping leading whitespace never changes the token list. -/
theorem tokenizeAux_dropWhile_ws :
    ∀ l : List Char, tokenizeAux (l.dropWhile isPySpace) = tokenizeAux l := by
  intro l
  induction l with
  | nil => rfl
  | cons c rest ih =>
    rw [List.dropWhile_cons]
    by_cases hws : isPySpace c
    · rw [if_pos hws, tokenizeAux_cons, if_pos hws]
      exact ih
    · rw [if_neg hws]

/-- The `strip` inside `tokenize` is invisible to the token regex: the
tokens of a line equal the tokens of the stripped line. -/
theorem tokenize_eq_tokenizeAux (l : List Char) : tokenize l = tokenizeAux l := by
  unfold tokenize pyStrip
  set m := l.dropWhile isPySpace with hm
  obtain ⟨hdec, hws⟩ := rtrim_decomp m
  calc tokenizeAux ((m.reverse.dropWhile isPySpace).reverse)
      = tokenizeAux ((m.reverse.dropWhile isPySpace).reverse ++
          (m.reverse.takeWhile isPySpace).reverse) := by
        rw [tokenizeAux_append_ws ((m.reverse.dropWhile isPySpace).reverse).length
          _ _ (le_refl _) hws]
    _ = tokenizeAux m := by rw [← hdec]
    _ = tokenizeAux l := by rw [hm]; exact tokenizeAux_dropWhile_ws l

theorem splitAtQuote_exact (q : Char) :
    ∀ (n r : List Char), q ∉ n → splitAtQuote q (n ++ q :: r) = some (n, r) := by
  intro n
  induction n with
  | nil =>
    intro r _
    simp [splitAtQuote]
  | cons x xs ih =>
    intro r hq
    rw [List.cons_append]
    simp only [splitAtQuote]
    rw [if_neg (by
      intro he
      exact hq (by simp [he]))]
    rw [ih r (fun hm => hq (by simp [hm]))]

theorem scanNonWS_all_nonws (n : List Char) (h : ∀ c ∈ n, isPySpace c = false) :
    scanNonWS n = (n, []) := by
  rw [scanNonWS_eq]
  have hall : ∀ c ∈ n, (!isPySpace c) = true := by
    intro c hc
    simp [h c hc]
  rw [takeWhile_eq_self_of_all _ n hall, List.dropWhile_eq_nil_iff.mpr]
  intro x hx
  simp [h x hx]

theorem scanNonWS_break (n r : List Char) (h : ∀ c ∈ n, isPySpace c = false) :
    scanNonWS (n ++ ' ' :: r) = (n, ' ' :: r) := by
  rw [scanNonWS_eq]
  have hall : ∀ c ∈ n, (!isPySpace c) = true := by
    intro c hc
    simp [h c hc]
  rw [takeWhile_append_all _ _ _ hall, dropWhile_append_all _ _ _ hall,
    List.takeWhile_cons, List.dropWhile_cons]
  rw [if_neg (by decide), if_neg (by decide)]
  simp

theorem tokenizeAux_quoted (q : Char) (hq2 : q = squote ∨ q = dquote)
    (n rest : List Char) (hq : q ∉ n) :
    tokenizeAux (q :: (n ++ q :: rest)) = n :: tokenizeAux rest := by
  rw [tokenizeAux_cons]
  rcases hq2 with hq2 | hq2
  · subst hq2
    rw [if_neg (by decide), if_pos rfl, splitAtQuote_exact squote n rest hq]
  · subst hq2
    rw [if_neg (by decide), if_neg (by decide), if_pos rfl,
      splitAtQuote_exact dquote n rest hq]

theorem renderOne_no_semi (p : QStyle × List Char) (h : okPart p) : ';' ∉ renderOne p := by
  rcases p with ⟨q, n⟩
  cases q with
  | single =>
    obtain ⟨h1, h2⟩ := h
    intro hm
    simp only [renderOne] at hm
    rcases List.mem_cons.mp hm with he | hm2
    · exact absurd he (by decide)
    · rcases List.mem_append.mp hm2 with h3 | h3
      · exact h2 h3
      · rw [List.mem_singleton] at h3
        exact absurd h3 (by decide)
  | double =>
    obtain ⟨h1, h2⟩ := h
    intro hm
    simp only [renderOne] at hm
    rcases List.mem_cons.mp hm with he | hm2
    · exact absurd he (by decide)
    · rcases List.mem_append.mp hm2 with h3 | h3
      · exact h2 h3
      · rw [List.mem_singleton] at h3
        exact absurd h3 (by decide)
  | bare =>
    obtain ⟨_, _, _, _, h5⟩ := h
    exact h5

theorem renderAll_no_semi :
    ∀ ps : List (QStyle × List Char), (∀ p ∈ ps, okPart p) → ';' ∉ renderAll ps := by
  intro ps
  induction ps with
  | nil => intro _ hm; cases hm
  | cons p rest ih =>
    intro hok hm
    have hp : okPart p := hok p (by simp)
    have hrest : ∀ x ∈ rest, okPart x := fun x hx => hok x (by simp [hx])
    cases rest with
    | nil => exact renderOne_no_semi p hp hm
    | cons p2 rs =>
      have : renderAll (p :: p2 :: rs) = renderOne p ++ ' ' :: renderAll (p2 :: rs) := rfl
      rw [this] at hm
      rcases List.mem_append.mp hm with h1 | h1
      · exact renderOne_no_semi p hp h1
      · rcases List.mem_cons.mp h1 with h2 | h2
        · exact absurd h2 (by decide)
        · exact ih hrest h2

/-- Mixed quoted and unquoted well-formed names tokenize back to exactly
the name list, with quote characters stripped and the inner whitespace of
quoted names preserved. -/
theorem tokenizeAux_renderAll :
    ∀ ps : List (QStyle × List Char), (∀ p ∈ ps, okPart p) →
      tokenizeAux (renderAll ps) = ps.map Prod.snd := by
  intro ps
  induction ps with
  | nil => intro _; rfl
  | cons p rest ih =>
    intro hok
    have hp : okPart p := hok p (by simp)
    have hrest : ∀ x ∈ rest, okPart x := fun x hx => hok x (by simp [hx])
    cases rest with
    | nil =>
      rcases p with ⟨q, n⟩
      cases q with
      | single =>
        obtain ⟨h1, h2⟩ := hp
        show tokenizeAux (squote :: n ++ [squote]) = [n]
        have heq : squote :: n ++ [squote] = squote :: (n ++ squote :: []) := by simp
        rw [heq, tokenizeAux_quoted squote (Or.inl rfl) n [] h1, tokenizeAux_nil]
      | double =>
        obtain ⟨h1, h2⟩ := hp
        show tokenizeAux (dquote :: n ++ [dquote]) = [n]
        have heq : dquote :: n ++ [dquote] = dquote :: (n ++ dquote :: []) := by simp
        rw [heq, tokenizeAux_quoted dquote (Or.inr rfl) n [] h1, tokenizeAux_nil]
      | bare =>
        obtain ⟨h1, h2, h3, h4, h5⟩ := hp
        show tokenizeAux n = [n]
        cases n with
        | nil => exact absurd rfl h1
        | cons x xs =>
          rw [tokenizeAux_cons]
          rw [if_neg (by simp [h2 x (by simp)])]
          rw [if_neg (fun he => h3 (by simp [he])),
            if_neg (fun he => h4 (by simp [he]))]
          rw [scanNonWS_all_nonws xs (fun c hc => h2 c (by simp [hc]))]
          dsimp only
          rw [tokenizeAux_nil]
    | cons p2 rs =>
      have ihr : tokenizeAux (renderAll (p2 :: rs)) = (p2 :: rs).map Prod.snd := ih hrest
      have hspace : tokenizeAux (' ' :: renderAll (p2 :: rs)) =
          tokenizeAux (renderAll (p2 :: rs)) := by
        rw [tokenizeAux_cons, if_pos (by decide)]
      rcases p with ⟨q, n⟩
      cases q with
      | single =>
        obtain ⟨h1, h2⟩ := hp
        show tokenizeAux ((squote :: n ++ [squote]) ++ ' ' :: renderAll (p2 :: rs)) =
          n :: (p2 :: rs).map Prod.snd
        have heq : (squote :: n ++ [squote]) ++ ' ' :: renderAll (p2 :: rs) =
            squote :: (n ++ squote :: (' ' :: renderAll (p2 :: rs))) := by simp
        rw [heq, tokenizeAux_quoted squote (Or.inl rfl) n _ h1, hspace, ihr]
      | double =>
        obtain ⟨h1, h2⟩ := hp
        show tokenizeAux ((dquote :: n ++ [dquote]) ++ ' ' :: renderAll (p2 :: rs)) =
          n :: (p2 :: rs).map Prod.snd
        have heq : (dquote :: n ++ [dquote]) ++ ' ' :: renderAll (p2 :: rs) =
            dquote :: (n ++ dquote :: (' ' :: renderAll (p2 :: rs))) := by simp
        rw [heq, tokenizeAux_quoted dquote (Or.inr rfl) n _ h1, hspace, ihr]
      | bare =>
        obtain ⟨h1, h2, h3, h4, h5⟩ := hp
        show tokenizeAux (n ++ ' ' :: renderAll (p2 :: rs)) = n :: (p2 :: rs).map Prod.snd
        cases n with
        | nil => exact absurd rfl h1
        | cons x xs =>
          rw [List.cons_append, tokenizeAux_cons]
          rw [if_neg (by simp [h2 x (by simp)])]
          rw [if_neg (fun he => h3 (by simp [he])),
            if_neg (fun he => h4 (by simp [he]))]
          rw [scanNonWS_break xs _ (fun c hc => h2 c (by simp [hc]))]
          dsimp only
          rw [hspace, ihr]

theorem findCI_of_checkCI (pat s : List Char) (h : checkCI pat s) : findCI pat s = some s := by
  cases s with
  | nil => unfold findCI; rw [if_pos h]
  | cons c rest => unfold findCI; rw [if_pos h]

theorem checkCI_header (X : List Char) :
    checkCI "taxlabels".toList ("TAXLABELS ".toList ++ X) := by
  unfold checkCI
  rw [List.take_append_of_le_length (by decide)]
  decide

/-- The TAXLABELS parser recovers exactly a rendered list of well-formed
mixed-quoting names, whatever follows the terminating semicolon. -/
theorem parse_taxlabels_block_render (ps : List (QStyle × List Char)) (tail : List Char)
    (hok : ∀ p ∈ ps, okPart p) :
    parse_taxlabels_block ("TAXLABELS ".toList ++ (renderAll ps ++ ';' :: tail)) =
      ps.map Prod.snd := by
  have hck : checkCI "taxlabels".toList ("TAXLABELS ".toList ++ (renderAll ps ++ ';' :: tail)) :=
    checkCI_header _
  unfold parse_taxlabels_block
  rw [findCI_of_checkCI _ _ hck]
  dsimp only
  rw [if_pos (show ';' ∈ "TAXLABELS ".toList ++ (renderAll ps ++ ';' :: tail) by
    apply List.mem_append_right
    apply List.mem_append_right
    simp)]
  have htw : ("TAXLABELS ".toList ++ (renderAll ps ++ ';' :: tail)).takeWhile
      (fun c => !(c == ';')) = "TAXLABELS ".toList ++ renderAll ps := by
    rw [← List.append_assoc]
    rw [takeWhile_append_all _ _ _ (by
      intro c hc
      rcases List.mem_append.mp hc with h1 | h1
      · exact (by decide : ∀ c ∈ "TAXLABELS ".toList, (!(c == ';')) = true) c h1
      · have hns := renderAll_no_semi ps hok
        have hne : c ≠ ';' := fun he => hns (he ▸ h1)
        simp [hne])]
    rw [List.takeWhile_cons, if_neg (by simp)]
    simp
  rw [htw]
  rw [if_pos (checkCI_header (renderAll ps))]
  have hdrop : ("TAXLABELS ".toList ++ renderAll ps).drop 9 = ' ' :: renderAll ps := by
    rw [List.drop_append_of_le_length (by decide)]
    have h9 : "TAXLABELS ".toList.drop 9 = [' '] := by decide
    rw [h9]
    rfl
  rw [hdrop]
  rw [tokenize_eq_tokenizeAux]
  have hstrip : tokenizeAux (pyStrip (' ' :: renderAll ps)) =
      tokenizeAux (' ' :: renderAll ps) := by
    have h1 := tokenize_eq_tokenizeAux (' ' :: renderAll ps)
    have h2 : tokenize (' ' :: renderAll ps) =
        tokenizeAux (pyStrip (' ' :: renderAll ps)) := rfl
    rw [h2] at h1
    exact h1
  rw [hstrip, tokenizeAux_cons, if_pos (by decide)]
  exact tokenizeAux_renderAll ps hok

/-- Claim C4: a TAXLABELS block with any mix of single-quoted,
double-quoted and bare well-formed names yields exactly those names, with
quote characters stripped and inner whitespace of quoted names preserved;
in particular Scenario B extracts the set with the three names
tax one (quoted), taxB and taxC. -/
theorem c4_mixed_quoting :
    (∀ (ps : List (QStyle × List Char)) (tail : List Char), (∀ p ∈ ps, okPart p) →
      parse_taxlabels_block ("TAXLABELS ".toList ++ (renderAll ps ++ ';' :: tail)) =
        ps.map Prod.snd) ∧
    parse_nexus_taxa ("#NEXUS\nBEGIN TAXA;\nTAXLABELS ".toList ++
        squote :: "tax one".toList ++ squote :: " taxB taxC;\nEND;\n".toList) =
      (["tax one".toList, "taxB".toList, "taxC".toList]).toFinset := by
  constructor
  · exact parse_taxlabels_block_render
  · decide

/-- Witness for claim C4 at the Scenario B name list. -/
theorem c4_mixed_quoting_witness :
    parse_taxlabels_block ("TAXLABELS ".toList ++
      (renderAll [(QStyle.single, "tax one".toList), (QStyle.bare, "taxB".toList),
        (QStyle.bare, "taxC".toList)] ++ ';' :: "\nEND;".toList)) =
      ["tax one".toList, "taxB".toList, "taxC".toList] :=
  c4_mixed_quoting.1 [(QStyle.single, "tax one".toList), (QStyle.bare, "taxB".toList),
    (QStyle.bare, "taxC".toList)] "\nEND;".toList (by decide)

/-- Claim C5: the FASTA extractor returns exactly the set of first
whitespace-delimited tokens of the text after each line-leading `>`
marker, skipping headers empty after the marker, with duplicates
collapsed; in particular Scenario A yields exactly taxA and taxB. -/
theorem c5_fasta_extractor :
    (∀ (text l : List Char), l ∈ parse_fasta_taxa text ↔
      ∃ rest, ('>' :: rest) ∈ splitlines text ∧ pyStrip rest ≠ [] ∧
        l = (pyStrip rest).takeWhile (fun ch => !isPySpace ch)) ∧
    parse_fasta_taxa ">taxA desc\n>taxB\n>taxA dup\n".toList =
      (["taxA".toList, "taxB".toList]).toFinset := by
  constructor
  · exact parse_fasta_taxa_mem_iff
  · decide

/-- Claim C8: a taxon present in the group table gets its mapped value
verbatim, even the empty string; otherwise the policy decides: species
maps the taxon to itself, NA to the literal NA, none to the empty
string. -/
theorem c8_group_resolver :
    (∀ (mapping : List Char → Option (List Char)) (mode t g : List Char),
      mapping t = some g → pick_group mapping mode t = g) ∧
    (∀ (mapping : List Char → Option (List Char)) (t : List Char), mapping t = none →
      pick_group mapping "species".toList t = t ∧
      pick_group mapping "NA".toList t = "NA".toList ∧
      pick_group mapping "none".toList t = []) := by
  constructor
  · intro mapping mode t g h
    unfold pick_group
    rw [h]
  · intro mapping t h
    unfold pick_group
    rw [h]
    refine ⟨?_, ?_, ?_⟩
    · rw [if_pos rfl]
    · rw [if_neg (by decide), if_pos rfl]
    · rw [if_neg (by decide), if_neg (by decide), if_pos rfl]

/-- Witness for claim C8: a table mapping taxA to the empty string is
returned verbatim, and an unmapped taxon follows the policy. -/
theorem c8_group_resolver_witness :
    pick_group (fun x => if x = "taxA".toList then some [] else none) "NA".toList
      "taxA".toList = [] ∧
    pick_group (fun x => if x = "taxA".toList then some [] else none) "species".toList
      "taxB".toList = "taxB".toList :=
  ⟨c8_group_resolver.1 (fun x => if x = "taxA".toList then some [] else none)
      "NA".toList "taxA".toList [] (by simp),
    (c8_group_resolver.2 (fun x => if x = "taxA".toList then some [] else none)
      "taxB".toList (by simp)).1⟩

/-- Claim C9: an empty file list exits with status 2, a non-empty file
list whose scan yields no taxa exits with status 3, both before the map
file is written; the two statuses are distinct and non-zero, and a folder
with only an unrecognized file in non-strict mode takes the status-3
path. -/
theorem c9_exit_statuses :
    (∀ strict : Bool, main_model [] strict = ⟨2, false, ∅⟩) ∧
    (∀ (files : List FileModel) (strict : Bool), files ≠ [] →
      gather_taxa files strict = Except.ok ∅ →
      main_model files strict = ⟨3, false, ∅⟩) ∧
    ((2 : Nat) ≠ 3 ∧ (2 : Nat) ≠ 0 ∧ (3 : Nat) ≠ 0) ∧
    main_model [⟨some "hello\n".toList, ".txt".toList⟩] false = ⟨3, false, ∅⟩ := by
  refine ⟨?_, ?_, by decide, by decide⟩
  · intro strict
    unfold main_model
    rw [if_pos rfl]
  · intro files strict h1 h2
    unfold main_model
    rw [if_neg h1, h2]
    dsimp only
    rw [if_pos rfl]

/-- Witness for claim C9 at an empty file list and at one unreadable-free
but unrecognized file. -/
theorem c9_exit_statuses_witness :
    main_model [] true = ⟨2, false, ∅⟩ ∧
    main_model [⟨none, ".txt".toList⟩] false = ⟨3, false, ∅⟩ :=
  ⟨c9_exit_statuses.1 true,
    c9_exit_statuses.2.1 [⟨none, ".txt".toList⟩] false (by simp) rfl⟩

theorem gather_error_absorb (strict : Bool) (e : ScanError) :
    ∀ files : List FileModel,
      files.foldl (gatherStep strict) (Except.error e) = Except.error e := by
  intro files
  induction files with
  | nil => rfl
  | cons f fs ih =>
    rw [List.foldl_cons]
    exact ih

theorem gather_nonstrict_ok :
    ∀ (files : List FileModel) (acc : Finset (List Char)),
      ∃ s, files.foldl (gatherStep false) (Except.ok acc) = Except.ok s := by
  intro files
  induction files with
  | nil => intro acc; exact ⟨acc, rfl⟩
  | cons f fs ih =>
    intro acc
    rw [List.foldl_cons]
    have hstep : ∃ s1, gatherStep false (Except.ok acc) f = Except.ok s1 := by
      unfold gatherStep
      cases detect_format_from_content f with
      | fasta =>
        cases f.content with
        | some text => exact ⟨_, rfl⟩
        | none => exact ⟨acc, rfl⟩
      | nexus =>
        cases f.content with
        | some text => exact ⟨_, rfl⟩
        | none => exact ⟨acc, rfl⟩
      | unknown => exact ⟨acc, rfl⟩
    obtain ⟨s1, hs1⟩ := hstep
    rw [hs1]
    exact ih s1

/-- Claim C7: when an extractor raises on one file (the file read fails
on a file whose detected format is fasta or nexus), the non-strict scan
skips it and returns the union over the remaining files, while the strict
scan aborts: the whole run is the propagated error, whatever comes
after. -/
theorem c7_gather_exceptions :
    ∀ (pre post : List FileModel) (f : FileModel),
      detect_format_from_content f ≠ Fmt.unknown → f.content = none →
      (gather_taxa (pre ++ f :: post) false = gather_taxa (pre ++ post) false) ∧
      ((gather_taxa pre true).isOk = true →
        gather_taxa (pre ++ f :: post) true = Except.error ScanError.readFailure) := by
  intro pre post f hfmt hcontent
  have hstep : ∀ s : Finset (List Char),
      gatherStep false (Except.ok s) f = Except.ok s ∧
      gatherStep true (Except.ok s) f = Except.error ScanError.readFailure := by
    intro s
    unfold gatherStep
    cases hd : detect_format_from_content f with
    | unknown => exact absurd hd hfmt
    | fasta => rw [hcontent]; exact ⟨rfl, rfl⟩
    | nexus => rw [hcontent]; exact ⟨rfl, rfl⟩
  constructor
  · show (pre ++ f :: post).foldl (gatherStep false) (Except.ok ∅) = _
    rw [List.foldl_append]
    obtain ⟨s, hs⟩ := gather_nonstrict_ok pre ∅
    rw [hs, List.foldl_cons, (hstep s).1]
    show _ = (pre ++ post).foldl (gatherStep false) (Except.ok ∅)
    rw [List.foldl_append, hs]
  · intro hok
    cases hg : gather_taxa pre true with
    | error e => rw [hg] at hok; cases hok
    | ok s =>
      show (pre ++ f :: post).foldl (gatherStep true) (Except.ok ∅) = _
      rw [List.foldl_append]
      have hpre : pre.foldl (gatherStep true) (Except.ok ∅) = Except.ok s := hg
      rw [hpre, List.foldl_cons, (hstep s).2]
      exact gather_error_absorb true ScanError.readFailure post

/-- Witness for claim C7: a good FASTA file before and after an
unreadable FASTA file. -/
theorem c7_gather_exceptions_witness :
    (gather_taxa [⟨some ">A\n".toList, ".fasta".toList⟩, ⟨none, ".fas".toList⟩,
        ⟨some ">B\n".toList, ".fasta".toList⟩] false =
      gather_taxa [⟨some ">A\n".toList, ".fasta".toList⟩,
        ⟨some ">B\n".toList, ".fasta".toList⟩] false) ∧
    gather_taxa [⟨some ">A\n".toList, ".fasta".toList⟩, ⟨none, ".fas".toList⟩,
        ⟨some ">B\n".toList, ".fasta".toList⟩] true =
      Except.error ScanError.readFailure :=
  ⟨(c7_gather_exceptions [⟨some ">A\n".toList, ".fasta".toList⟩]
      [⟨some ">B\n".toList, ".fasta".toList⟩] ⟨none, ".fas".toList⟩
      (by decide) rfl).1,
    (c7_gather_exceptions [⟨some ">A\n".toList, ".fasta".toList⟩]
      [⟨some ">B\n".toList, ".fasta".toList⟩] ⟨none, ".fas".toList⟩
      (by decide) rfl).2 rfl⟩

theorem load_groups_foldl (t : List Char) (tax grp : Nat) :
    ∀ (dataRows : List (List (List Char))) (m : List Char → Option (List Char)),
      (dataRows.foldl
        (fun m r =>
          if r.length ≤ max tax grp then m
          else
            let taxon := pyStrip (r.getD tax [])
            let group := pyStrip (r.getD grp [])
            if taxon = [] then m else dictInsert m taxon group) m) t =
      (match lookupLast t (dataRows.filterMap (rowBinding tax grp)) with
       | some g => some g
       | none => m t) := by
  intro dataRows
  induction dataRows with
  | nil => intro m; rfl
  | cons r rs ih =>
    intro m
    rw [List.foldl_cons, List.filterMap_cons]
    by_cases hguard : r.length ≤ max tax grp
    · have hb : rowBinding tax grp r = none := by
        unfold rowBinding
        rw [if_pos hguard]
      rw [hb]
      dsimp only
      rw [if_pos hguard]
      exact ih m
    · by_cases htax : pyStrip (r.getD tax []) = []
      · have hb : rowBinding tax grp r = none := by
          unfold rowBinding
          rw [if_neg hguard]
          dsimp only
          rw [if_pos htax]
        rw [hb]
        dsimp only
        rw [if_neg hguard]
        rw [if_pos htax]
        exact ih m
      · have hb : rowBinding tax grp r =
            some (pyStrip (r.getD tax []), pyStrip (r.getD grp [])) := by
          unfold rowBinding
          rw [if_neg hguard]
          dsimp only
          rw [if_neg htax]
        rw [hb]
        dsimp only
        rw [if_neg hguard]
        rw [if_neg htax]
        rw [ih]
        rw [lookupLast]
        cases hlk : lookupLast t (rs.filterMap (rowBinding tax grp)) with
        | some g => rfl
        | none =>
          dsimp only
          unfold dictInsert
          by_cases hkt : pyStrip (r.getD tax []) = t
          · rw [if_pos hkt, if_pos hkt.symm]
          · rw [if_neg hkt, if_neg (fun he => hkt he.symm)]

theorem option_match_id (o : Option (List Char)) :
    (match o with | some g => some g | none => none) = o := by
  cases o <;> rfl

/-- Claim C10: when the same taxon appears in several data rows of the
group table, the loaded mapping returns the group of the last such row:
the lookup equals the latest binding in row order. -/
theorem c10_last_row_wins (rows : List (List (List Char))) (t : List Char) :
    load_groups_rows rows t = lookupLast t (groupBindings rows) := by
  cases rows with
  | nil => rfl
  | cons first rest =>
    unfold load_groups_rows groupBindings
    dsimp only
    rw [load_groups_foldl]
    exact option_match_id _

theorem dropComment_none_iff : ∀ l : List Char, dropComment l = none ↔ ']' ∉ l := by
  intro l
  induction l with
  | nil => simp [dropComment]
  | cons c rest ih =>
    simp only [dropComment, List.mem_cons]
    by_cases hc : c = ']'
    · rw [if_pos hc]
      constructor
      · intro h; cases h
      · intro h
        exact absurd (Or.inl hc.symm) h
    · rw [if_neg hc]
      rw [ih]
      constructor
      · rintro h (h1 | h1)
        · exact hc h1.symm
        · exact h h1
      · intro h h1
        exact h (Or.inr h1)

theorem dropComment_subset : ∀ (l r : List Char), dropComment l = some r → ∀ a ∈ r, a ∈ l := by
  intro l
  induction l with
  | nil => intro r h; cases h
  | cons c rest ih =>
    intro r h a ha
    simp only [dropComment] at h
    by_cases hc : c = ']'
    · rw [if_pos hc] at h
      cases h
      exact List.mem_cons_of_mem c ha
    · rw [if_neg hc] at h
      exact List.mem_cons_of_mem c (ih r h a ha)

theorem stripFuel_subset :
    ∀ (fuel : Nat) (s : List Char), ∀ a ∈ stripFuel fuel s, a ∈ s := by
  intro fuel
  induction fuel with
  | zero =>
    intro s a ha
    cases s with
    | nil => cases ha
    | cons c rest => exact ha
  | succ fuel ih =>
    intro s a ha
    cases s with
    | nil => cases ha
    | cons c rest =>
      simp only [stripFuel] at ha
      by_cases hc : c = '['
      · rw [if_pos hc] at ha
        cases hdc : dropComment rest with
        | some r =>
          rw [hdc] at ha
          exact List.mem_cons_of_mem c (dropComment_subset rest r hdc a (ih r a ha))
        | none =>
          rw [hdc] at ha
          rcases List.mem_cons.mp ha with h1 | h1
          · simp [h1]
          · exact List.mem_cons_of_mem c (ih rest a h1)
      · rw [if_neg hc] at ha
        rcases List.mem_cons.mp ha with h1 | h1
        · simp [h1]
        · exact List.mem_cons_of_mem c (ih rest a h1)

/-- No opening bracket in the list is followed by a closing bracket; such
a text has no regex match at all. -/
def noPair : List Char → Bool
  | [] => true
  | c :: rest =>
    if c = '[' then !(decide (']' ∈ rest)) && noPair rest else noPair rest

theorem stripFuel_of_noPair :
    ∀ (fuel : Nat) (s : List Char), s.length ≤ fuel → noPair s = true →
      stripFuel fuel s = s := by
  intro fuel
  induction fuel with
  | zero =>
    intro s hlen _
    have hs : s = [] := List.length_eq_zero.mp (Nat.le_zero.mp hlen)
    subst hs
    rfl
  | succ fuel ih =>
    intro s hlen hnp
    cases s with
    | nil => rfl
    | cons c rest =>
      simp only [List.length_cons] at hlen
      simp only [stripFuel]
      by_cases hc : c = '['
      · rw [if_pos hc]
        rw [noPair, if_pos hc, Bool.and_eq_true] at hnp
        have hnc : ']' ∉ rest := by
          have := hnp.1
          simp at this
          exact this
        rw [(dropComment_none_iff rest).mpr hnc]
        rw [ih rest (by omega) hnp.2]
      · rw [if_neg hc]
        rw [noPair, if_neg hc] at hnp
        rw [ih rest (by omega) hnp]

theorem noPair_stripFuel :
    ∀ (fuel : Nat) (s : List Char), s.length ≤ fuel →
      noPair (stripFuel fuel s) = true := by
  intro fuel
  induction fuel with
  | zero =>
    intro s hlen
    have hs : s = [] := List.length_eq_zero.mp (Nat.le_zero.mp hlen)
    subst hs
    rfl
  | succ fuel ih =>
    intro s hlen
    cases s with
    | nil => rfl
    | cons c rest =>
      simp only [List.length_cons] at hlen
      simp only [stripFuel]
      by_cases hc : c = '['
      · rw [if_pos hc]
        cases hdc : dropComment rest with
        | some r =>
          have hr := dropComment_length rest r hdc
          exact ih r (by omega)
        | none =>
          have hnc : ']' ∉ rest := (dropComment_none_iff rest).mp hdc
          rw [noPair, if_pos hc, Bool.and_eq_true]
          constructor
          · simp only [Bool.not_eq_true', decide_eq_false_iff_not]
            intro hmem
            exact hnc (stripFuel_subset fuel rest ']' hmem)
          · exact ih rest (by omega)
      · rw [if_neg hc]
        rw [noPair, if_neg hc]
        exact ih rest (by omega)

/-- Claim C6: comment stripping is idempotent; a second pass over already
stripped text changes nothing. -/
theorem c6_strip_idempotent (t : List Char) :
    strip_nexus_comments (strip_nexus_comments t) = strip_nexus_comments t := by
  have h1 : noPair (strip_nexus_comments t) = true :=
    noPair_stripFuel t.length t (le_refl _)
  exact stripFuel_of_noPair (strip_nexus_comments t).length _ (le_refl _) h1
